import Mathlib

/-!
# A verification of pytagspace's indexing engine

Shallow embedding of `src/pytagspace/tag_space.py`.

Python dicts are modelled as insertion-ordered association lists
(`List (K × A)` with pairwise-distinct keys), Python sets as `Finset`,
and `defaultdict` reads as an operation that inserts the default for a
missing key and returns the updated map.  `functools.reduce` without an
initial value raises `TypeError` on an empty iterable, so every code
path built on it is modelled as fallible.  Each mutating method returns
the state after the call together with the exception it raised, if any,
since Python mutates in place and an exception can leave earlier
mutations of the same call behind.
-/

namespace PyTagSpace

/-- The Python exception kinds raised by the modelled code paths. -/
inductive PyErr
  | keyError
  | typeError
  | valueError
deriving DecidableEq, Repr

section AssocOps

variable {K A : Type} [DecidableEq K]

/-- Python dict read `d[k]` on a plain dict, as a partial lookup. -/
def lookupA : List (K × A) → K → Option A
  | [], _ => none
  | e :: rest, k => if e.1 = k then some e.2 else lookupA rest k

/-- Python dict write `d[k] = a`: update the entry in place when the key is
present (its position is kept), otherwise append the new entry at the end. -/
def setA : List (K × A) → K → A → List (K × A)
  | [], k, a => [(k, a)]
  | e :: rest, k, a => if e.1 = k then (e.1, a) :: rest else e :: setA rest k a

/-- Python dict deletion `del d[k]` once the key is known to be present:
drop the entry.  (Callers model the `KeyError` of a missing key.) -/
def delA : List (K × A) → K → List (K × A)
  | [], _ => []
  | e :: rest, k => if e.1 = k then rest else e :: delA rest k

/-- Python `defaultdict.__getitem__ d[k]`: a missing key is inserted with the
default value.  Returns the (possibly grown) dict and the value read. -/
def getA (l : List (K × A)) (k : K) (dflt : A) : List (K × A) × A :=
  match lookupA l k with
  | some a => (l, a)
  | none => (l ++ [(k, dflt)], dflt)

end AssocOps

/-- `functools.reduce(lambda x, y: x.union(y), bs)`: `TypeError` on an empty
list, otherwise a left fold of set union starting from the first element. -/
def reduceUnion {O : Type} [DecidableEq O] : List (Finset O) → Except PyErr (Finset O)
  | [] => .error .typeError
  | b :: bs => .ok (bs.foldl (fun x y => x ∪ y) b)

/-- `functools.reduce(lambda x, y: x.intersection(y), bs)` in
`TagSpace.find_objs`: `TypeError` on an empty list. -/
def reduceInter {O : Type} [DecidableEq O] : List (Finset O) → Except PyErr (Finset O)
  | [] => .error .typeError
  | b :: bs => .ok (bs.foldl (fun x y => x ∩ y) b)

/-- `functools.reduce(lambda x, y: x if x == y else None, rs)` in
`Tag.find_tag`: `TypeError` on an empty list. -/
def reduceShared {V : Type} [DecidableEq V] : List (Option V) → Except PyErr (Option V)
  | [] => .error .typeError
  | r :: rs => .ok (rs.foldl (fun x y => if x = y then x else none) r)

/-- The state of a `Tag` index: `_mapping` is a `defaultdict(set)` from tag
value to the set of tagged objects, `_reverse_mapping` a plain dict from
object to its single current value. -/
structure Tag (V O : Type) where
  mapping : List (V × Finset O)
  reverse : List (O × V)
deriving DecidableEq

/-- A selector, the union type
`Union[TagValueType, TagValueIterableType, TagValueFunctionType]` accepted by
`Tag.find_objs` and `Tag.remove_tags`: an exact value, a list/tuple of
values, or a predicate. -/
inductive Sel (V : Type)
  | val (v : V)
  | list (vs : List V)
  | fn (p : V → Bool)

/-- The `tag_value` argument of `Tag.tag`: an exact value or a list/tuple of
values paired positionally with the objects.  (A callable here would take the
`ValueError` branch of `Tag.tag`; no claim touches it.) -/
inductive TagArg (V : Type)
  | val (v : V)
  | list (vs : List V)

section TagOps

variable {V O : Type} [DecidableEq V] [DecidableEq O]

/-- A fresh `Tag()`: both dicts empty. -/
def Tag.empty : Tag V O := ⟨[], []⟩

/-- `Tag._tag(obj, tag_value)`.  When `obj` already has a reverse entry for
`w`, the code reads `self._mapping[w]` (a `defaultdict` read, which inserts
an empty bucket when `w` is somehow absent) and calls `set.remove(obj)`,
which raises `KeyError` when `obj` is not in that bucket; then the object is
added to the target bucket and the reverse entry is written. -/
def tagOne (t : Tag V O) (o : O) (v : V) : Tag V O × Option PyErr :=
  match lookupA t.reverse o with
  | some w =>
      let p := getA t.mapping w ∅
      if o ∈ p.2 then
        let m2 := setA p.1 w (p.2.erase o)
        let q := getA m2 v ∅
        (⟨setA q.1 v (insert o q.2), setA t.reverse o v⟩, none)
      else
        (⟨p.1, t.reverse⟩, some .keyError)
  | none =>
      let q := getA t.mapping v ∅
      (⟨setA q.1 v (insert o q.2), setA t.reverse o v⟩, none)

/-- The loop of `Tag.tag`: `Tag._tag` over a list of (object, value) pairs,
stopping at the first exception with the partially mutated state. -/
def tagMany (t : Tag V O) : List (O × V) → Tag V O × Option PyErr
  | [] => (t, none)
  | p :: ps =>
      let r := tagOne t p.1 p.2
      match r.2 with
      | some e => (r.1, some e)
      | none => tagMany r.1 ps

/-- `Tag.tag(*objs, tag_value)`: a single value is applied to every object;
a list/tuple is paired with the objects positionally by `zip` (which stops at
the shorter sequence).  An empty list makes `is_tag_value_iterable` call
`functools.reduce` on an empty iterable, raising `TypeError` before any
mutation. -/
def tagT (t : Tag V O) (objs : List O) : TagArg V → Tag V O × Option PyErr
  | .val v => tagMany t (objs.map (fun o => (o, v)))
  | .list vs =>
      match vs with
      | [] => (t, some .typeError)
      | _ :: _ => tagMany t (objs.zip vs)

/-- The comprehension `[self._mapping[value] for value in tag_value]` over
the `defaultdict`: missing keys are inserted left to right as they are read. -/
def getMany (m : List (V × Finset O)) : List V → List (V × Finset O) × List (Finset O)
  | [] => (m, [])
  | v :: vs =>
      let q := getA m v ∅
      let r := getMany q.1 vs
      (r.1, q.2 :: r.2)

/-- `Tag.find_objs(tag_value)`.  An exact value is a `defaultdict` read
(inserting an empty bucket for an unseen value); a list of values unions the
buckets read for each; a predicate unions the buckets of the currently
present keys satisfying it.  The empty list and the no-key-satisfies cases
raise `TypeError` via `functools.reduce`. -/
def findObjsT (t : Tag V O) : Sel V → Tag V O × Except PyErr (Finset O)
  | .val v =>
      let q := getA t.mapping v ∅
      (⟨q.1, t.reverse⟩, .ok q.2)
  | .list vs =>
      match vs with
      | [] => (t, .error .typeError)
      | _ :: _ =>
          let r := getMany t.mapping vs
          (⟨r.1, t.reverse⟩, reduceUnion r.2)
  | .fn p =>
      (t, reduceUnion (((t.mapping.map Prod.fst).filter p).map
        (fun v => (lookupA t.mapping v).getD ∅)))

/-- `Tag.find_tag(*objs)`: reduce the reverse lookups (absent objects read as
`None`) with `x if x == y else None`.  Reads only, never mutates. -/
def findTagT (t : Tag V O) (objs : List O) : Except PyErr (Option V) :=
  reduceShared (objs.map (fun o => lookupA t.reverse o))

/-- `Tag._remove_tag(tag_value)`: when the value is a key, delete each of its
bucket's objects from the reverse dict and delete the key itself.  When some
bucket object has no reverse entry, Python's loop raises `KeyError` after
deleting a set-iteration-order-dependent subset of the entries; that branch
is unreachable from states satisfying the index invariant (`Inv`, below), and
the model leaves the state unchanged there. -/
def removeTagV (t : Tag V O) (v : V) : Tag V O × Option PyErr :=
  match lookupA t.mapping v with
  | none => (t, none)
  | some b =>
      if ∀ o ∈ b, (lookupA t.reverse o).isSome then
        (⟨delA t.mapping v, t.reverse.filter (fun e => decide (e.1 ∉ b))⟩, none)
      else
        (t, some .keyError)

/-- A loop of `Tag._remove_tag` calls, stopping at the first exception. -/
def removeTagMany (t : Tag V O) : List V → Tag V O × Option PyErr
  | [] => (t, none)
  | v :: vs =>
      let r := removeTagV t v
      match r.2 with
      | some e => (r.1, some e)
      | none => removeTagMany r.1 vs

/-- `Tag.remove_tags(tag_value)`: one value, each value of a list (an empty
list raises `TypeError` in `is_tag_value_iterable`), or every currently
present key satisfying a predicate (collected before any deletion). -/
def removeTagsT (t : Tag V O) : Sel V → Tag V O × Option PyErr
  | .val v => removeTagV t v
  | .list vs =>
      match vs with
      | [] => (t, some .typeError)
      | _ :: _ => removeTagMany t vs
  | .fn p => removeTagMany t ((t.mapping.map Prod.fst).filter p)

/-- One step of `Tag.remove_objs`: an object with a reverse entry for `w` is
removed from the bucket read by `self._mapping[w]` (a `defaultdict` read;
`set.remove` raises `KeyError` when the object is not there) and its reverse
entry is deleted; an object with no reverse entry is silently skipped. -/
def removeObjOne (t : Tag V O) (o : O) : Tag V O × Option PyErr :=
  match lookupA t.reverse o with
  | none => (t, none)
  | some w =>
      let p := getA t.mapping w ∅
      if o ∈ p.2 then
        (⟨setA p.1 w (p.2.erase o), delA t.reverse o⟩, none)
      else
        (⟨p.1, t.reverse⟩, some .keyError)

/-- `Tag.remove_objs(*objs)`: the loop over the given objects. -/
def removeObjsT (t : Tag V O) : List O → Tag V O × Option PyErr
  | [] => (t, none)
  | o :: os =>
      let r := removeObjOne t o
      match r.2 with
      | some e => (r.1, some e)
      | none => removeObjsT r.1 os

/-- `Tag.clear()`: both dicts are emptied. -/
def clearT (_t : Tag V O) : Tag V O := Tag.empty

/-- The forward bucket of a value: the set stored under the key, the empty
set when the key is absent. -/
def bucket (t : Tag V O) (v : V) : Finset O := (lookupA t.mapping v).getD ∅

/-- The reverse view: the single current value of an object, if any. -/
def rv (t : Tag V O) (o : O) : Option V := lookupA t.reverse o

/-- Both dicts of a `Tag` have pairwise-distinct keys (as Python dicts do). -/
def KeysNodup (t : Tag V O) : Prop :=
  (t.mapping.map Prod.fst).Nodup ∧ (t.reverse.map Prod.fst).Nodup

/-- The exclusivity invariant of a `Tag` index: distinct dict keys, every
reverse entry `obj → v` has `obj` in the forward bucket of `v`, and every
object of a forward bucket has the reverse entry for exactly that value
(which forces the buckets to be mutually exclusive). -/
def Inv (t : Tag V O) : Prop :=
  KeysNodup t
  ∧ (∀ o v, rv t o = some v → o ∈ bucket t v)
  ∧ (∀ v o, o ∈ bucket t v → rv t o = some v)

end TagOps

/-- The state of a `TagSpace`: the `is_strict` construction flag and the
dict from tag name to `Tag` (a plain dict when strict, a `defaultdict(Tag)`
otherwise). -/
structure TagSpace (V O : Type) where
  isStrict : Bool
  mapping : List (String × Tag V O)
deriving DecidableEq

section SpaceOps

variable {V O : Type} [DecidableEq V] [DecidableEq O]

/-- `TagSpace(is_strict)`: starts with no indices either way. -/
def TagSpace.empty (strict : Bool) : TagSpace V O := ⟨strict, []⟩

/-- The read `self._mapping[tag_name]` inside `TagSpace`: the strict plain
dict raises `KeyError` on a missing name; the `defaultdict` inserts a fresh
empty `Tag` and returns it. -/
def spaceGetTag (sp : TagSpace V O) (n : String) : TagSpace V O × Except PyErr (Tag V O) :=
  match lookupA sp.mapping n with
  | some t => (sp, .ok t)
  | none =>
      if sp.isStrict then (sp, .error .keyError)
      else (⟨sp.isStrict, sp.mapping ++ [(n, Tag.empty)]⟩, .ok Tag.empty)

/-- The comprehension of `TagSpace.find_objs`, evaluated left to right: each
name is read (strictness applies), the index's `find_objs` runs (its
`defaultdict` mutation is written back), and the bucket list is collected
until the first exception. -/
def spaceFindList (sp : TagSpace V O) :
    List (String × Sel V) → TagSpace V O × Except PyErr (List (Finset O))
  | [] => (sp, .ok [])
  | (n, s) :: rest =>
      match spaceGetTag sp n with
      | (sp1, .error e) => (sp1, .error e)
      | (sp1, .ok t) =>
          let r := findObjsT t s
          let sp2 : TagSpace V O := ⟨sp1.isStrict, setA sp1.mapping n r.1⟩
          match r.2 with
          | .error e => (sp2, .error e)
          | .ok b =>
              match spaceFindList sp2 rest with
              | (sp3, .error e) => (sp3, .error e)
              | (sp3, .ok bs) => (sp3, .ok (b :: bs))

/-- `TagSpace.find_objs(**kw_tags)`: intersect the per-name results with
`functools.reduce` (so zero pairs raise `TypeError`). -/
def spaceFindObjs (sp : TagSpace V O) (kw : List (String × Sel V)) :
    TagSpace V O × Except PyErr (Finset O) :=
  match spaceFindList sp kw with
  | (sp1, .error e) => (sp1, .error e)
  | (sp1, .ok bs) => (sp1, reduceInter bs)

/-- The first loop of `TagSpace.remove_tags`: `del self._mapping[tag_name]`
for each plain name, left to right.  Deletion does not auto-create, so a
missing name raises `KeyError` in both modes, after the earlier names have
already been deleted. -/
def delNames (sp : TagSpace V O) : List String → TagSpace V O × Option PyErr
  | [] => (sp, none)
  | n :: ns =>
      match lookupA sp.mapping n with
      | some _ => delNames ⟨sp.isStrict, delA sp.mapping n⟩ ns
      | none => (sp, some .keyError)

/-- The second loop of `TagSpace.remove_tags`: for each keyword pair, read
the index (strictness applies) and run its `remove_tags`. -/
def spaceRemoveKw (sp : TagSpace V O) :
    List (String × Sel V) → TagSpace V O × Option PyErr
  | [] => (sp, none)
  | (n, s) :: rest =>
      match spaceGetTag sp n with
      | (sp1, .error e) => (sp1, some e)
      | (sp1, .ok t) =>
          let r := removeTagsT t s
          let sp2 : TagSpace V O := ⟨sp1.isStrict, setA sp1.mapping n r.1⟩
          match r.2 with
          | some e => (sp2, some e)
          | none => spaceRemoveKw sp2 rest

/-- `TagSpace.remove_tags(*tag_names, **kw_tags)`: the name loop runs first,
then the keyword loop. -/
def spaceRemoveTags (sp : TagSpace V O) (names : List String)
    (kw : List (String × Sel V)) : TagSpace V O × Option PyErr :=
  match delNames sp names with
  | (sp1, some e) => (sp1, some e)
  | (sp1, none) => spaceRemoveKw sp1 kw

end SpaceOps

/-- One mutating call of the `Tag` API: `tag`, `remove_tags`, `remove_objs`
or `clear`. -/
inductive TagOp (V O : Type)
  | tagCall (objs : List O) (arg : TagArg V)
  | removeTagsCall (s : Sel V)
  | removeObjsCall (objs : List O)
  | clearCall

section ExecOps

variable {V O : Type} [DecidableEq V] [DecidableEq O]

/-- The state after one mutating call (the state a raising call leaves
behind is kept, as Python mutates in place). -/
def applyOp (t : Tag V O) : TagOp V O → Tag V O
  | .tagCall objs a => (tagT t objs a).1
  | .removeTagsCall s => (removeTagsT t s).1
  | .removeObjsCall objs => (removeObjsT t objs).1
  | .clearCall => clearT t

/-- The state of a `Tag` index after a sequence of mutating calls. -/
def execOps (t : Tag V O) (ops : List (TagOp V O)) : Tag V O :=
  ops.foldl applyOp t

end ExecOps

section AssocLemmas

variable {K A : Type} [DecidableEq K]

theorem lookupA_setA_self (l : List (K × A)) (k : K) (a : A) :
    lookupA (setA l k a) k = some a := by
  induction l with
  | nil => simp [setA, lookupA]
  | cons e rest ih =>
      obtain ⟨k1, a1⟩ := e
      by_cases h : k1 = k
      · simp [setA, h, lookupA]
      · simp [setA, h, lookupA, ih]

theorem lookupA_setA_ne (l : List (K × A)) (k q : K) (a : A) (h : q ≠ k) :
    lookupA (setA l k a) q = lookupA l q := by
  induction l with
  | nil => simp [setA, lookupA, Ne.symm h]
  | cons e rest ih =>
      obtain ⟨k1, a1⟩ := e
      by_cases h1 : k1 = k
      · subst h1
        simp [setA, lookupA, Ne.symm h, h]
      · by_cases h2 : k1 = q
        · simp [setA, h1, lookupA, h2, h]
        · simp [setA, h1, lookupA, h2, ih]

theorem setA_lookup_eq (l : List (K × A)) (k : K) (a : A)
    (h : lookupA l k = some a) : setA l k a = l := by
  induction l with
  | nil => simp [lookupA] at h
  | cons e rest ih =>
      obtain ⟨k1, a1⟩ := e
      by_cases h1 : k1 = k
      · simp [lookupA, h1] at h
        simp [setA, h1, h]
      · simp [lookupA, h1] at h
        simp [setA, h1, ih h]

theorem setA_setA (l : List (K × A)) (k : K) (a b : A) :
    setA (setA l k a) k b = setA l k b := by
  induction l with
  | nil => simp [setA]
  | cons e rest ih =>
      obtain ⟨k1, a1⟩ := e
      by_cases h1 : k1 = k
      · simp [setA, h1]
      · simp [setA, h1, ih]

theorem setA_of_none (l : List (K × A)) (k : K) (a : A)
    (h : lookupA l k = none) : setA l k a = l ++ [(k, a)] := by
  induction l with
  | nil => simp [setA]
  | cons e rest ih =>
      obtain ⟨k1, a1⟩ := e
      by_cases h1 : k1 = k
      · simp [lookupA, h1] at h
      · simp [lookupA, h1] at h
        simp [setA, h1, ih h]

theorem keys_setA_of_some (l : List (K × A)) (k : K) (a b : A)
    (h : lookupA l k = some b) :
    (setA l k a).map Prod.fst = l.map Prod.fst := by
  induction l with
  | nil => simp [lookupA] at h
  | cons e rest ih =>
      obtain ⟨k1, a1⟩ := e
      by_cases h1 : k1 = k
      · simp [setA, h1]
      · simp [lookupA, h1] at h
        simp [setA, h1, ih h]

theorem lookupA_delA_ne (l : List (K × A)) (k q : K) (h : q ≠ k) :
    lookupA (delA l k) q = lookupA l q := by
  induction l with
  | nil => simp [delA]
  | cons e rest ih =>
      obtain ⟨k1, a1⟩ := e
      by_cases h1 : k1 = k
      · subst h1
        simp [delA, lookupA, Ne.symm h, h]
      · by_cases h2 : k1 = q
        · simp [delA, h1, lookupA, h2, h]
        · simp [delA, h1, lookupA, h2, ih]

theorem lookupA_eq_none_iff (l : List (K × A)) (k : K) :
    lookupA l k = none ↔ k ∉ l.map Prod.fst := by
  induction l with
  | nil => simp [lookupA]
  | cons e rest ih =>
      obtain ⟨k1, a1⟩ := e
      by_cases h1 : k1 = k
      · simp [lookupA, h1]
      · simp [lookupA, h1, ih, Ne.symm h1]

theorem lookupA_delA_self (l : List (K × A)) (k : K)
    (h : (l.map Prod.fst).Nodup) : lookupA (delA l k) k = none := by
  induction l with
  | nil => simp [delA, lookupA]
  | cons e rest ih =>
      obtain ⟨k1, a1⟩ := e
      simp only [List.map_cons, List.nodup_cons] at h
      by_cases h1 : k1 = k
      · subst h1
        simpa [delA, lookupA_eq_none_iff] using h.1
      · simp [delA, h1, lookupA, ih h.2]

theorem lookupA_append_some (l l2 : List (K × A)) (k : K) (a : A)
    (h : lookupA l k = some a) : lookupA (l ++ l2) k = some a := by
  induction l with
  | nil => simp [lookupA] at h
  | cons e rest ih =>
      obtain ⟨k1, a1⟩ := e
      by_cases h1 : k1 = k
      · simp [lookupA, h1] at h
        simp [lookupA, h1, h]
      · simp [lookupA, h1] at h
        simp [lookupA, h1, ih h]

theorem lookupA_append_none (l l2 : List (K × A)) (k : K)
    (h : lookupA l k = none) : lookupA (l ++ l2) k = lookupA l2 k := by
  induction l with
  | nil => simp
  | cons e rest ih =>
      obtain ⟨k1, a1⟩ := e
      by_cases h1 : k1 = k
      · simp [lookupA, h1] at h
      · simp [lookupA, h1] at h
        simp [lookupA, h1, ih h]

theorem delA_sublist (l : List (K × A)) (k : K) : (delA l k).Sublist l := by
  induction l with
  | nil => simp [delA]
  | cons e rest ih =>
      obtain ⟨k1, a1⟩ := e
      by_cases h1 : k1 = k
      · simpa [delA, h1] using List.sublist_cons_self (k1, a1) rest
      · simpa [delA, h1] using List.Sublist.cons₂ (k1, a1) ih

theorem nodup_append_one (l : List (K × A)) (k : K) (a : A)
    (h : (l.map Prod.fst).Nodup) (hk : lookupA l k = none) :
    (((l ++ [(k, a)]).map Prod.fst)).Nodup := by
  rw [List.map_append]
  refine List.Nodup.append h (by simp) ?_
  intro x hx hx2
  simp at hx2
  subst hx2
  exact (lookupA_eq_none_iff l x).mp hk hx

theorem nodup_setA (l : List (K × A)) (k : K) (a : A)
    (h : (l.map Prod.fst).Nodup) : ((setA l k a).map Prod.fst).Nodup := by
  cases hk : lookupA l k with
  | none =>
      rw [setA_of_none l k a hk]
      exact nodup_append_one l k a h hk
  | some b =>
      rw [keys_setA_of_some l k a b hk]
      exact h

theorem nodup_delA (l : List (K × A)) (k : K)
    (h : (l.map Prod.fst).Nodup) : ((delA l k).map Prod.fst).Nodup :=
  List.Nodup.sublist (List.Sublist.map Prod.fst (delA_sublist l k)) h

theorem getA_of_some (l : List (K × A)) (k : K) (d a : A)
    (h : lookupA l k = some a) : getA l k d = (l, a) := by
  simp [getA, h]

theorem getA_of_none (l : List (K × A)) (k : K) (d : A)
    (h : lookupA l k = none) : getA l k d = (l ++ [(k, d)], d) := by
  simp [getA, h]

theorem getA_snd (l : List (K × A)) (k : K) (d : A) :
    (getA l k d).2 = (lookupA l k).getD d := by
  unfold getA
  cases h : lookupA l k <;> simp

theorem lookupA_getA_self (l : List (K × A)) (k : K) (d : A) :
    lookupA (getA l k d).1 k = some ((getA l k d).2) := by
  cases h : lookupA l k with
  | none =>
      rw [getA_of_none l k d h]
      simp [lookupA_append_none l [(k, d)] k h, lookupA]
  | some a =>
      rw [getA_of_some l k d a h]
      simpa using h

theorem lookupA_getA_ne (l : List (K × A)) (k q : K) (d : A) (h : q ≠ k) :
    lookupA (getA l k d).1 q = lookupA l q := by
  cases hk : lookupA l k with
  | none =>
      rw [getA_of_none l k d hk]
      by_cases hq : lookupA l q = none
      · rw [lookupA_append_none l [(k, d)] q hq, hq]
        simp [lookupA, Ne.symm h]
      · rcases Option.ne_none_iff_exists'.mp hq with ⟨a, ha⟩
        rw [lookupA_append_some l [(k, d)] q a ha, ha]
  | some a => rw [getA_of_some l k d a hk]

theorem nodup_getA (l : List (K × A)) (k : K) (d : A)
    (h : (l.map Prod.fst).Nodup) : (((getA l k d).1.map Prod.fst)).Nodup := by
  cases hk : lookupA l k with
  | none =>
      rw [getA_of_none l k d hk]
      exact nodup_append_one l k d h hk
  | some a =>
      rw [getA_of_some l k d a hk]
      exact h

theorem lookupA_filter_notin (l : List (K × A)) (b : Finset K) (k : K) :
    lookupA (l.filter (fun e => !decide (e.1 ∈ b))) k =
      if k ∈ b then none else lookupA l k := by
  induction l with
  | nil => simp [lookupA]
  | cons e rest ih =>
      obtain ⟨k1, a1⟩ := e
      by_cases hb : k1 ∈ b
      · by_cases hk : k1 = k
        · subst hk
          simp [List.filter_cons, lookupA, hb, ih]
        · simp [List.filter_cons, lookupA, hb, hk, ih]
      · by_cases hk : k1 = k
        · subst hk
          simp [List.filter_cons, lookupA, hb]
        · simp [List.filter_cons, lookupA, hb, hk, ih]

theorem nodup_filter_keys (l : List (K × A)) (f : K × A → Bool)
    (h : (l.map Prod.fst).Nodup) : ((l.filter f).map Prod.fst).Nodup :=
  List.Nodup.sublist (List.Sublist.map Prod.fst (List.filter_sublist l)) h

end AssocLemmas

section TagLemmas

variable {V O : Type} [DecidableEq V] [DecidableEq O]

theorem inv_empty : Inv (Tag.empty : Tag V O) := by
  refine ⟨⟨by simp [Tag.empty], by simp [Tag.empty]⟩, ?_, ?_⟩
  · intro o v h
    simp [rv, Tag.empty, lookupA] at h
  · intro v o h
    simp [bucket, Tag.empty, lookupA] at h

theorem bucket_mk (m : List (V × Finset O)) (r : List (O × V)) (u : V) :
    bucket ⟨m, r⟩ u = (lookupA m u).getD ∅ := rfl

theorem rv_mk (m : List (V × Finset O)) (r : List (O × V)) (x : O) :
    rv ⟨m, r⟩ x = lookupA r x := rfl

theorem lookupA_of_mem_bucket {t : Tag V O} {v : V} {o : O} (h : o ∈ bucket t v) :
    lookupA t.mapping v = some (bucket t v) := by
  unfold bucket at h ⊢
  cases hk : lookupA t.mapping v with
  | none => rw [hk] at h; simp at h
  | some b => rfl

theorem notin_bucket_of_rv_none {t : Tag V O} {o : O} (h : Inv t)
    (hrv : rv t o = none) : ∀ u, o ∉ bucket t u := by
  intro u hu
  have := h.2.2 u o hu
  rw [hrv] at this
  exact Option.noConfusion this

theorem notin_bucket_of_rv_some {t : Tag V O} {o : O} {w : V} (h : Inv t)
    (hrv : rv t o = some w) : ∀ u, u ≠ w → o ∉ bucket t u := by
  intro u hne hu
  have := h.2.2 u o hu
  rw [hrv] at this
  exact hne (Option.some_injective _ this).symm

theorem tagOne_ok (t : Tag V O) (o : O) (v : V) (h : Inv t) :
    (tagOne t o v).2 = none
    ∧ KeysNodup (tagOne t o v).1
    ∧ (∀ x, rv (tagOne t o v).1 x = if x = o then some v else rv t x)
    ∧ (∀ u, bucket (tagOne t o v).1 u =
        if u = v then insert o ((bucket t u).erase o) else (bucket t u).erase o) := by
  obtain ⟨⟨hn1, hn2⟩, hr2f, hf2r⟩ := h
  cases hrv : lookupA t.reverse o with
  | none =>
      have hnob : ∀ u, o ∉ bucket t u :=
        notin_bucket_of_rv_none ⟨⟨hn1, hn2⟩, hr2f, hf2r⟩ hrv
      have hres : tagOne t o v =
          (⟨setA (getA t.mapping v ∅).1 v (insert o ((getA t.mapping v ∅).2)),
            setA t.reverse o v⟩, none) := by
        simp only [tagOne, hrv]
      rw [hres]
      refine ⟨rfl, ⟨nodup_setA _ _ _ (nodup_getA _ _ _ hn1), nodup_setA _ _ _ hn2⟩, ?_, ?_⟩
      · intro x
        by_cases hx : x = o
        · subst hx
          rw [if_pos rfl, rv_mk]
          exact lookupA_setA_self _ _ _
        · rw [if_neg hx, rv_mk]
          exact lookupA_setA_ne _ _ _ _ hx
      · intro u
        by_cases hu : u = v
        · subst hu
          rw [if_pos rfl, Finset.erase_eq_of_not_mem (hnob u), bucket_mk,
            lookupA_setA_self]
          simp only [Option.getD_some]
          rw [getA_snd]
          rfl
        · rw [if_neg hu, Finset.erase_eq_of_not_mem (hnob u), bucket_mk,
            lookupA_setA_ne _ _ _ _ hu, lookupA_getA_ne _ _ _ _ hu]
          rfl
  | some w =>
      have hb : o ∈ bucket t w := hr2f o w hrv
      have hnob : ∀ u, u ≠ w → o ∉ bucket t u :=
        notin_bucket_of_rv_some ⟨⟨hn1, hn2⟩, hr2f, hf2r⟩ hrv
      have hgw : getA t.mapping w ∅ = (t.mapping, bucket t w) :=
        getA_of_some _ _ _ _ (lookupA_of_mem_bucket hb)
      have hres : tagOne t o v =
          (⟨setA (getA (setA t.mapping w ((bucket t w).erase o)) v ∅).1 v
              (insert o ((getA (setA t.mapping w ((bucket t w).erase o)) v ∅).2)),
            setA t.reverse o v⟩, none) := by
        simp only [tagOne, hrv, hgw, if_pos hb]
      have hm2 : ∀ u, (lookupA (setA t.mapping w ((bucket t w).erase o)) u).getD ∅ =
          (bucket t u).erase o := by
        intro u
        by_cases hu : u = w
        · subst hu
          rw [lookupA_setA_self]
          rfl
        · rw [lookupA_setA_ne _ _ _ _ hu, Finset.erase_eq_of_not_mem (hnob u hu)]
          rfl
      rw [hres]
      refine ⟨rfl,
        ⟨nodup_setA _ _ _ (nodup_getA _ _ _ (nodup_setA _ _ _ hn1)), nodup_setA _ _ _ hn2⟩,
        ?_, ?_⟩
      · intro x
        by_cases hx : x = o
        · subst hx
          rw [if_pos rfl, rv_mk]
          exact lookupA_setA_self _ _ _
        · rw [if_neg hx, rv_mk]
          exact lookupA_setA_ne _ _ _ _ hx
      · intro u
        by_cases hu : u = v
        · subst hu
          rw [if_pos rfl, bucket_mk, lookupA_setA_self]
          simp only [Option.getD_some]
          rw [getA_snd, hm2 u]
        · rw [if_neg hu, bucket_mk, lookupA_setA_ne _ _ _ _ hu,
            lookupA_getA_ne _ _ _ _ hu]
          exact hm2 u

theorem inv_of_tag_shape {t t2 : Tag V O} (o : O) (v : V) (h : Inv t)
    (hn : KeysNodup t2)
    (hrv2 : ∀ x, rv t2 x = if x = o then some v else rv t x)
    (hbk : ∀ u, bucket t2 u =
      if u = v then insert o ((bucket t u).erase o) else (bucket t u).erase o) :
    Inv t2 := by
  obtain ⟨hn1, hr2f, hf2r⟩ := h
  refine ⟨hn, ?_, ?_⟩
  · intro p u hp
    rw [hrv2 p] at hp
    by_cases hpo : p = o
    · rw [if_pos hpo] at hp
      injection hp with hv
      rw [hbk u, if_pos hv.symm, hpo]
      exact Finset.mem_insert_self o _
    · rw [if_neg hpo] at hp
      have hmem := hr2f p u hp
      rw [hbk u]
      by_cases huv : u = v
      · rw [if_pos huv]
        exact Finset.mem_insert_of_mem (Finset.mem_erase_of_ne_of_mem hpo hmem)
      · rw [if_neg huv]
        exact Finset.mem_erase_of_ne_of_mem hpo hmem
  · intro u p hp
    rw [hbk u] at hp
    rw [hrv2 p]
    by_cases huv : u = v
    · subst huv
      rw [if_pos rfl] at hp
      rcases Finset.mem_insert.mp hp with hpo | hpe
      · rw [if_pos hpo]
      · rw [if_neg (Finset.mem_erase.mp hpe).1]
        exact hf2r u p (Finset.mem_erase.mp hpe).2
    · rw [if_neg huv] at hp
      rw [if_neg (Finset.mem_erase.mp hp).1]
      exact hf2r u p (Finset.mem_erase.mp hp).2

theorem inv_tagOne (t : Tag V O) (o : O) (v : V) (h : Inv t) :
    Inv (tagOne t o v).1 := by
  obtain ⟨_, h2, h3, h4⟩ := tagOne_ok t o v h
  exact inv_of_tag_shape o v h h2 h3 h4

theorem tagMany_ok (ps : List (O × V)) (t : Tag V O) (h : Inv t) :
    (tagMany t ps).2 = none ∧ Inv (tagMany t ps).1 := by
  induction ps generalizing t with
  | nil => exact ⟨rfl, h⟩
  | cons p ps ih =>
      have h1 := (tagOne_ok t p.1 p.2 h).1
      have h2 := inv_tagOne t p.1 p.2 h
      simp only [tagMany, h1]
      exact ih _ h2

theorem inv_tagT (t : Tag V O) (objs : List O) (a : TagArg V) (h : Inv t) :
    Inv (tagT t objs a).1 := by
  cases a with
  | val v => exact (tagMany_ok _ t h).2
  | list vs =>
      cases vs with
      | nil => exact h
      | cons v vs => exact (tagMany_ok _ t h).2

theorem removeTagV_ok (t : Tag V O) (v : V) (h : Inv t) :
    (removeTagV t v).2 = none
    ∧ KeysNodup (removeTagV t v).1
    ∧ lookupA (removeTagV t v).1.mapping v = none
    ∧ (∀ u, bucket (removeTagV t v).1 u = if u = v then ∅ else bucket t u)
    ∧ (∀ o, rv (removeTagV t v).1 o = if o ∈ bucket t v then none else rv t o) := by
  obtain ⟨⟨hn1, hn2⟩, hr2f, hf2r⟩ := h
  cases hk : lookupA t.mapping v with
  | none =>
      have hbe : bucket t v = ∅ := by unfold bucket; rw [hk]; rfl
      have hres : removeTagV t v = (t, none) := by simp only [removeTagV, hk]
      rw [hres]
      refine ⟨rfl, ⟨hn1, hn2⟩, hk, ?_, ?_⟩
      · intro u
        by_cases hu : u = v
        · subst hu
          rw [if_pos rfl, hbe]
        · rw [if_neg hu]
      · intro o
        rw [hbe]
        simp
  | some b =>
      have hbv : bucket t v = b := by unfold bucket; rw [hk]; rfl
      have hguard : ∀ o ∈ b, (lookupA t.reverse o).isSome := by
        intro o ho
        have := hf2r v o (by rw [hbv]; exact ho)
        unfold rv at this
        rw [this]
        rfl
      have hres : removeTagV t v =
          (⟨delA t.mapping v, t.reverse.filter (fun e => decide (e.1 ∉ b))⟩, none) := by
        simp only [removeTagV, hk, if_pos hguard]
      rw [hres]
      have hrvf : ∀ o, lookupA (t.reverse.filter (fun e => decide (e.1 ∉ b))) o =
          if o ∈ b then none else lookupA t.reverse o := by
        intro o
        have hconv : (fun (e : O × V) => decide (e.1 ∉ b)) =
            (fun e => !decide (e.1 ∈ b)) := by
          funext e
          simp
        rw [hconv]
        exact lookupA_filter_notin t.reverse b o
      refine ⟨rfl,
        ⟨nodup_delA _ _ hn1, nodup_filter_keys _ _ hn2⟩,
        lookupA_delA_self _ _ hn1, ?_, ?_⟩
      · intro u
        by_cases hu : u = v
        · subst hu
          rw [if_pos rfl, bucket_mk, lookupA_delA_self _ _ hn1]
          rfl
        · rw [if_neg hu, bucket_mk, lookupA_delA_ne _ _ _ hu]
          rfl
      · intro o
        rw [rv_mk, hrvf o, hbv]
        rfl

theorem inv_of_removetag_shape {t t2 : Tag V O} (v : V) (h : Inv t) (hn : KeysNodup t2)
    (hbk : ∀ u, bucket t2 u = if u = v then ∅ else bucket t u)
    (hrv2 : ∀ o, rv t2 o = if o ∈ bucket t v then none else rv t o) : Inv t2 := by
  obtain ⟨hn1, hr2f, hf2r⟩ := h
  refine ⟨hn, ?_, ?_⟩
  · intro p u hp
    rw [hrv2 p] at hp
    by_cases hpb : p ∈ bucket t v
    · rw [if_pos hpb] at hp
      exact Option.noConfusion hp
    · rw [if_neg hpb] at hp
      have hmem := hr2f p u hp
      have huv : u ≠ v := by
        intro he
        subst he
        exact hpb hmem
      rw [hbk u, if_neg huv]
      exact hmem
  · intro u p hp
    rw [hbk u] at hp
    by_cases huv : u = v
    · rw [if_pos huv] at hp
      exact absurd hp (Finset.not_mem_empty p)
    · rw [if_neg huv] at hp
      have hrp := hf2r u p hp
      have hpb : p ∉ bucket t v := by
        intro hmem
        exact huv (Option.some_injective _ ((hf2r v p hmem).symm.trans hrp)).symm
      rw [hrv2 p, if_neg hpb]
      exact hrp

theorem inv_removeTagV (t : Tag V O) (v : V) (h : Inv t) : Inv (removeTagV t v).1 := by
  obtain ⟨_, h2, _, h4, h5⟩ := removeTagV_ok t v h
  exact inv_of_removetag_shape v h h2 h4 h5

theorem removeTagMany_ok (vs : List V) (t : Tag V O) (h : Inv t) :
    (removeTagMany t vs).2 = none ∧ Inv (removeTagMany t vs).1 := by
  induction vs generalizing t with
  | nil => exact ⟨rfl, h⟩
  | cons v vs ih =>
      have h1 := (removeTagV_ok t v h).1
      have h2 := inv_removeTagV t v h
      simp only [removeTagMany, h1]
      exact ih _ h2

theorem inv_removeTagsT (t : Tag V O) (s : Sel V) (h : Inv t) :
    Inv (removeTagsT t s).1 := by
  cases s with
  | val v => exact inv_removeTagV t v h
  | list vs =>
      cases vs with
      | nil => exact h
      | cons v vs => exact (removeTagMany_ok _ t h).2
  | fn p => exact (removeTagMany_ok _ t h).2

theorem removeObjOne_ok (t : Tag V O) (o : O) (h : Inv t) :
    (removeObjOne t o).2 = none
    ∧ KeysNodup (removeObjOne t o).1
    ∧ (∀ u, bucket (removeObjOne t o).1 u = (bucket t u).erase o)
    ∧ (∀ x, rv (removeObjOne t o).1 x = if x = o then none else rv t x) := by
  obtain ⟨⟨hn1, hn2⟩, hr2f, hf2r⟩ := h
  cases hrv : lookupA t.reverse o with
  | none =>
      have hnob : ∀ u, o ∉ bucket t u :=
        notin_bucket_of_rv_none ⟨⟨hn1, hn2⟩, hr2f, hf2r⟩ hrv
      have hres : removeObjOne t o = (t, none) := by simp only [removeObjOne, hrv]
      rw [hres]
      refine ⟨rfl, ⟨hn1, hn2⟩, ?_, ?_⟩
      · intro u
        rw [Finset.erase_eq_of_not_mem (hnob u)]
      · intro x
        by_cases hx : x = o
        · subst hx
          rw [if_pos rfl]
          exact hrv
        · rw [if_neg hx]
  | some w =>
      have hb : o ∈ bucket t w := hr2f o w hrv
      have hnob : ∀ u, u ≠ w → o ∉ bucket t u :=
        notin_bucket_of_rv_some ⟨⟨hn1, hn2⟩, hr2f, hf2r⟩ hrv
      have hgw : getA t.mapping w ∅ = (t.mapping, bucket t w) :=
        getA_of_some _ _ _ _ (lookupA_of_mem_bucket hb)
      have hres : removeObjOne t o =
          (⟨setA t.mapping w ((bucket t w).erase o), delA t.reverse o⟩, none) := by
        simp only [removeObjOne, hrv, hgw, if_pos hb]
      rw [hres]
      refine ⟨rfl, ⟨nodup_setA _ _ _ hn1, nodup_delA _ _ hn2⟩, ?_, ?_⟩
      · intro u
        by_cases hu : u = w
        · subst hu
          rw [bucket_mk, lookupA_setA_self]
          rfl
        · rw [bucket_mk, lookupA_setA_ne _ _ _ _ hu,
            Finset.erase_eq_of_not_mem (hnob u hu)]
          rfl
      · intro x
        by_cases hx : x = o
        · subst hx
          rw [if_pos rfl, rv_mk]
          exact lookupA_delA_self _ _ hn2
        · rw [if_neg hx, rv_mk]
          exact lookupA_delA_ne _ _ _ hx

theorem inv_of_removeobj_shape {t t2 : Tag V O} (o : O) (h : Inv t) (hn : KeysNodup t2)
    (hbk : ∀ u, bucket t2 u = (bucket t u).erase o)
    (hrv2 : ∀ x, rv t2 x = if x = o then none else rv t x) : Inv t2 := by
  obtain ⟨hn1, hr2f, hf2r⟩ := h
  refine ⟨hn, ?_, ?_⟩
  · intro p u hp
    rw [hrv2 p] at hp
    by_cases hpo : p = o
    · rw [if_pos hpo] at hp
      exact Option.noConfusion hp
    · rw [if_neg hpo] at hp
      rw [hbk u]
      exact Finset.mem_erase_of_ne_of_mem hpo (hr2f p u hp)
  · intro u p hp
    rw [hbk u] at hp
    rw [hrv2 p, if_neg (Finset.mem_erase.mp hp).1]
    exact hf2r u p (Finset.mem_erase.mp hp).2

theorem inv_removeObjOne (t : Tag V O) (o : O) (h : Inv t) :
    Inv (removeObjOne t o).1 := by
  obtain ⟨_, h2, h3, h4⟩ := removeObjOne_ok t o h
  exact inv_of_removeobj_shape o h h2 h3 h4

theorem removeObjsT_ok (os : List O) (t : Tag V O) (h : Inv t) :
    (removeObjsT t os).2 = none ∧ Inv (removeObjsT t os).1 := by
  induction os generalizing t with
  | nil => exact ⟨rfl, h⟩
  | cons o os ih =>
      have h1 := (removeObjOne_ok t o h).1
      have h2 := inv_removeObjOne t o h
      simp only [removeObjsT, h1]
      exact ih _ h2

theorem inv_applyOp (t : Tag V O) (op : TagOp V O) (h : Inv t) : Inv (applyOp t op) := by
  cases op with
  | tagCall objs a => exact inv_tagT t objs a h
  | removeTagsCall s => exact inv_removeTagsT t s h
  | removeObjsCall objs => exact (removeObjsT_ok objs t h).2
  | clearCall => exact inv_empty

theorem inv_execOps (ops : List (TagOp V O)) (t : Tag V O) (h : Inv t) :
    Inv (execOps t ops) := by
  induction ops generalizing t with
  | nil => exact h
  | cons op ops ih => exact ih _ (inv_applyOp t op h)

end TagLemmas

section ClaimHelpers

variable {V O : Type} [DecidableEq V] [DecidableEq O]

theorem foldl_shared_eq_some (v : V) (rs : List (Option V)) (r : Option V) :
    rs.foldl (fun x y => if x = y then x else none) r = some v ↔
      (r = some v ∧ ∀ x ∈ rs, x = some v) := by
  induction rs generalizing r with
  | nil => simp
  | cons y ys ih =>
      rw [List.foldl_cons, ih]
      constructor
      · rintro ⟨h1, h2⟩
        by_cases hxy : r = y
        · rw [if_pos hxy] at h1
          refine ⟨h1, fun x hx => ?_⟩
          rcases List.mem_cons.mp hx with rfl | hx2
          · rw [← hxy]
            exact h1
          · exact h2 x hx2
        · rw [if_neg hxy] at h1
          exact absurd h1 (by simp)
      · rintro ⟨h1, h2⟩
        have hy : y = some v := h2 y (by simp)
        rw [h1, hy]
        exact ⟨by simp, fun x hx => h2 x (by simp [hx])⟩

theorem tagT_single (s : Tag V O) (o : O) (v : V) :
    tagT s [o] (TagArg.val v) = tagOne s o v := by
  cases hr : tagOne s o v with
  | mk t2 e =>
      cases e with
      | none => simp [tagT, tagMany, hr]
      | some err => simp [tagT, tagMany, hr]

theorem tagOne_shape (t : Tag V O) (o : O) (v : V) (t2 : Tag V O)
    (h : tagOne t o v = (t2, none)) :
    ∃ X R Y, t2 = (⟨setA X v (insert o Y), setA R o v⟩ : Tag V O) := by
  cases hrv : lookupA t.reverse o with
  | none =>
      simp only [tagOne, hrv] at h
      exact ⟨(getA t.mapping v ∅).1, t.reverse, (getA t.mapping v ∅).2,
        (congrArg Prod.fst h).symm⟩
  | some w =>
      simp only [tagOne, hrv] at h
      by_cases hmem : o ∈ (getA t.mapping w ∅).2
      · rw [if_pos hmem] at h
        exact ⟨(getA (setA (getA t.mapping w ∅).1 w ((getA t.mapping w ∅).2.erase o)) v ∅).1,
          t.reverse,
          (getA (setA (getA t.mapping w ∅).1 w ((getA t.mapping w ∅).2.erase o)) v ∅).2,
          (congrArg Prod.fst h).symm⟩
      · rw [if_neg hmem] at h
        exact absurd (congrArg Prod.snd h) (by simp)

theorem tagOne_self_fixed (X : List (V × Finset O)) (R : List (O × V)) (o : O)
    (v : V) (Y : Finset O) :
    tagOne (⟨setA X v (insert o Y), setA R o v⟩ : Tag V O) o v =
      (⟨setA X v (insert o Y), setA R o v⟩, none) := by
  have h1 : lookupA (setA R o v) o = some v := lookupA_setA_self R o v
  have h2 : lookupA (setA X v (insert o Y)) v = some (insert o Y) :=
    lookupA_setA_self X v _
  have hg : getA (setA X v (insert o Y)) v ∅ = (setA X v (insert o Y), insert o Y) :=
    getA_of_some _ _ _ _ h2
  have ho : o ∈ insert o Y := Finset.mem_insert_self o Y
  have h3 : lookupA (setA (setA X v (insert o Y)) v ((insert o Y).erase o)) v
      = some ((insert o Y).erase o) := lookupA_setA_self _ _ _
  have hg2 : getA (setA (setA X v (insert o Y)) v ((insert o Y).erase o)) v ∅
      = (setA (setA X v (insert o Y)) v ((insert o Y).erase o), (insert o Y).erase o) :=
    getA_of_some _ _ _ _ h3
  simp only [tagOne, h1, hg, if_pos ho, hg2]
  rw [Finset.insert_erase ho, setA_setA, setA_setA, setA_setA]

theorem reduceUnion_error (bs : List (Finset O)) (e : PyErr)
    (h : reduceUnion bs = .error e) : e = .typeError := by
  cases bs with
  | nil =>
      simp [reduceUnion] at h
      exact h.symm
  | cons b bs2 => simp [reduceUnion] at h

theorem findObjsT_error_is_typeError (t : Tag V O) (s : Sel V) (e : PyErr)
    (h : (findObjsT t s).2 = .error e) : e = .typeError := by
  cases s with
  | val v => simp [findObjsT] at h
  | list vs =>
      cases vs with
      | nil =>
          simp [findObjsT] at h
          exact h.symm
      | cons v vs2 =>
          simp only [findObjsT] at h
          exact reduceUnion_error _ _ h
  | fn p =>
      simp only [findObjsT] at h
      exact reduceUnion_error _ _ h

theorem spaceFindList_no_keyError (kw : List (String × Sel V)) (sp : TagSpace V O)
    (h : sp.isStrict = false) :
    (spaceFindList sp kw).2 ≠ .error PyErr.keyError := by
  induction kw generalizing sp with
  | nil => simp [spaceFindList]
  | cons p rest ih =>
      obtain ⟨n, s⟩ := p
      cases hk : lookupA sp.mapping n with
      | some t =>
          simp only [spaceFindList, spaceGetTag, hk]
          cases hr : (findObjsT t s).2 with
          | error e =>
              have he := findObjsT_error_is_typeError t s e hr
              subst he
              simp
          | ok b =>
              cases hres : spaceFindList ⟨sp.isStrict, setA sp.mapping n (findObjsT t s).1⟩ rest with
              | mk sp3 r3 =>
                  have hih := ih (⟨sp.isStrict, setA sp.mapping n (findObjsT t s).1⟩ : TagSpace V O) h
                  rw [hres] at hih
                  cases r3 with
                  | error e3 => simpa using hih
                  | ok bs3 => simp
      | none =>
          simp only [spaceFindList, spaceGetTag, hk, h, Bool.false_eq_true, if_false]
          cases hr : (findObjsT (Tag.empty : Tag V O) s).2 with
          | error e =>
              have he := findObjsT_error_is_typeError (Tag.empty : Tag V O) s e hr
              subst he
              simp
          | ok b =>
              cases hres : spaceFindList
                  ⟨false, setA (sp.mapping ++ [(n, Tag.empty)]) n (findObjsT (Tag.empty : Tag V O) s).1⟩ rest with
              | mk sp3 r3 =>
                  have hih := ih (⟨false,
                    setA (sp.mapping ++ [(n, Tag.empty)]) n (findObjsT (Tag.empty : Tag V O) s).1⟩ : TagSpace V O) rfl
                  rw [hres] at hih
                  cases r3 with
                  | error e3 => simpa using hih
                  | ok bs3 => simp

theorem spaceFindObjs_no_keyError (kw : List (String × Sel V)) (sp : TagSpace V O)
    (h : sp.isStrict = false) :
    (spaceFindObjs sp kw).2 ≠ .error PyErr.keyError := by
  unfold spaceFindObjs
  cases hres : spaceFindList sp kw with
  | mk sp1 r =>
      cases r with
      | error e =>
          have hno := spaceFindList_no_keyError kw sp h
          rw [hres] at hno
          simpa using hno
      | ok bs =>
          cases bs with
          | nil => simp [reduceInter]
          | cons b bs2 => simp [reduceInter]

theorem delNames_append (pre rest : List String) (sp m1 : TagSpace V O)
    (h : delNames sp pre = (m1, none)) :
    delNames sp (pre ++ rest) = delNames m1 rest := by
  induction pre generalizing sp with
  | nil =>
      simp only [delNames] at h
      have hsp : sp = m1 := congrArg Prod.fst h
      rw [List.nil_append, hsp]
  | cons n ns ih =>
      cases hk : lookupA sp.mapping n with
      | some t =>
          simp only [delNames, hk] at h
          simp only [List.cons_append, delNames, hk]
          exact ih _ h
      | none =>
          simp only [delNames, hk] at h
          exact absurd (congrArg Prod.snd h) (by simp)

theorem zip_append_left_eq {α β : Type} (l1 l2 : List α) (vs : List β)
    (h : vs.length ≤ l1.length) : (l1 ++ l2).zip vs = l1.zip vs := by
  induction vs generalizing l1 with
  | nil => simp
  | cons v vs2 ih =>
      cases l1 with
      | nil => simp at h
      | cons a l12 =>
          simp only [List.cons_append, List.zip_cons_cons]
          rw [ih l12 (by simpa using h)]

theorem zip_append_right_eq {α β : Type} (l1 : List α) (vs ws : List β)
    (h : l1.length ≤ vs.length) : l1.zip (vs ++ ws) = l1.zip vs := by
  induction l1 generalizing vs with
  | nil => simp
  | cons a l12 ih =>
      cases vs with
      | nil => simp at h
      | cons v vs2 =>
          simp only [List.cons_append, List.zip_cons_cons]
          rw [ih vs2 (by simpa using h)]

end ClaimHelpers

/-- C1: after any sequence of `tag`/`remove_tags`/`remove_objs`/`clear` calls
on a fresh exclusive `Tag` index, every reverse entry `obj → v` has `obj` in
the forward bucket of `v` and in no other bucket, and conversely every object
in some forward bucket has a reverse entry for exactly that bucket's value. -/
theorem C1_exclusivity_invariant (V O : Type) [DecidableEq V] [DecidableEq O]
    (ops : List (TagOp V O)) :
    (∀ o v, rv (execOps Tag.empty ops) o = some v →
        o ∈ bucket (execOps Tag.empty ops) v
        ∧ ∀ u, o ∈ bucket (execOps Tag.empty ops) u → u = v)
    ∧ (∀ v o, o ∈ bucket (execOps Tag.empty ops) v →
        rv (execOps Tag.empty ops) o = some v) := by
  have h := inv_execOps ops (Tag.empty : Tag V O) inv_empty
  refine ⟨fun o v hov => ⟨h.2.1 o v hov, fun u hu => ?_⟩, h.2.2⟩
  have h2 := h.2.2 u o hu
  rw [hov] at h2
  exact (Option.some_injective _ h2).symm

/-- C2 counterexample: with zero keyword pairs, `TagSpace.find_objs` raises
`TypeError` (from `functools.reduce` over an empty list); it does not return
the empty set. -/
theorem C2_zero_pairs_cex :
    (spaceFindObjs (TagSpace.empty false : TagSpace Nat Nat) []).2 = .error PyErr.typeError
    ∧ (spaceFindObjs (TagSpace.empty false : TagSpace Nat Nat) []).2 ≠ .ok ∅ := by
  refine ⟨rfl, fun hc => ?_⟩
  exact Except.noConfusion
    (show (Except.error PyErr.typeError : Except PyErr (Finset Nat)) = Except.ok ∅ from hc)

/-- C2 (amended): a `TagSpace.find_objs` call with zero keyword pairs raises
`TypeError` from `functools.reduce` over an empty list of per-index results —
neither the empty set nor a universal set — and leaves the space unchanged. -/
theorem C2_zero_pairs_typeerror (V O : Type) [DecidableEq V] [DecidableEq O]
    (sp : TagSpace V O) :
    spaceFindObjs sp [] = (sp, .error PyErr.typeError) := rfl

/-- C3 (code bug): a predicate `Tag.find_objs` call on an index where no
currently-present value satisfies the predicate — here the empty index, the
situation the repository's own `test_movie` exercises after the duration
index is deleted — raises `TypeError` from `functools.reduce` over an empty
list instead of returning the empty set. -/
theorem C3_empty_predicate_raises :
    (findObjsT (Tag.empty : Tag Nat Nat) (Sel.fn (fun _ => true))).2
      = .error PyErr.typeError := rfl

/-- C4 counterexample: a permissive (default-constructed) `TagSpace` does not
fail on a query naming an unregistered tag; it auto-creates an empty index
and the query returns the empty set. -/
theorem C4_permissive_cex :
    (spaceFindObjs (TagSpace.empty false : TagSpace Nat Nat) [("x", Sel.val 0)]).2
      = .ok ∅ := rfl

/-- C4 (amended): only a strict-mode `TagSpace` raises `KeyError` (the spec's
UnknownTagError) for a query pair naming an unregistered tag; the default
permissive mode auto-creates an empty index on the query path, so a
permissive query can never raise `KeyError`. -/
theorem C4_unknown_name_strict_only (V O : Type) [DecidableEq V] [DecidableEq O]
    (sp : TagSpace V O) (n : String) (s : Sel V) (rest : List (String × Sel V)) :
    (sp.isStrict = true → lookupA sp.mapping n = none →
      spaceFindObjs sp ((n, s) :: rest) = (sp, .error PyErr.keyError))
    ∧ (sp.isStrict = false →
      ∀ kw : List (String × Sel V), (spaceFindObjs sp kw).2 ≠ .error PyErr.keyError) := by
  constructor
  · intro hstrict hnone
    simp [spaceFindObjs, spaceFindList, spaceGetTag, hnone, hstrict]
  · intro hperm kw
    exact spaceFindObjs_no_keyError kw sp hperm

/-- C5 counterexample: after `remove_tags(5)` on an index holding object 0
under value 5, the slot for 5 is gone from the forward dict (`del` removes the
key); it does not remain present-but-empty. -/
theorem C5_slot_deleted_cex :
    lookupA (removeTagsT (⟨[(5, {0})], [(0, 5)]⟩ : Tag Nat Nat) (Sel.val 5)).1.mapping 5
        = none
    ∧ ¬ lookupA (removeTagsT (⟨[(5, {0})], [(0, 5)]⟩ : Tag Nat Nat) (Sel.val 5)).1.mapping 5
        = some ∅ := by
  decide

/-- C5 (amended): on an invariant-satisfying index, `remove_tags(v)` raises
nothing, discards the objects and reverse entries associated with `v`, and
deletes the slot for `v` entirely (rather than leaving it present but empty);
a subsequent exact `find_objs(v)` still returns the empty set rather than
raising, because the `defaultdict` re-creates an empty bucket. -/
theorem C5_remove_discards (V O : Type) [DecidableEq V] [DecidableEq O]
    (t : Tag V O) (v : V) (h : Inv t) (hv : bucket t v ≠ ∅) :
    (removeTagsT t (Sel.val v)).2 = none
    ∧ lookupA (removeTagsT t (Sel.val v)).1.mapping v = none
    ∧ bucket (removeTagsT t (Sel.val v)).1 v = ∅
    ∧ (∀ o ∈ bucket t v, rv (removeTagsT t (Sel.val v)).1 o = none)
    ∧ (findObjsT (removeTagsT t (Sel.val v)).1 (Sel.val v)).2 = .ok ∅ := by
  obtain ⟨h1, h2, h3, h4, h5⟩ := removeTagV_ok t v h
  have hred : removeTagsT t (Sel.val v) = removeTagV t v := rfl
  rw [hred]
  refine ⟨h1, h3, ?_, ?_, ?_⟩
  · rw [h4 v, if_pos rfl]
  · intro o ho
    rw [h5 o, if_pos ho]
  · show Except.ok ((getA (removeTagV t v).1.mapping v ∅).2) = .ok ∅
    rw [getA_snd, h3]
    rfl

/-- C5 witness: a concrete index holding object 0 under value 5. -/
theorem C5_remove_discards_witness :
    Inv (⟨[(5, {0})], [(0, 5)]⟩ : Tag Nat Nat)
    ∧ bucket (⟨[(5, {0})], [(0, 5)]⟩ : Tag Nat Nat) 5 ≠ ∅
    ∧ ((removeTagsT (⟨[(5, {0})], [(0, 5)]⟩ : Tag Nat Nat) (Sel.val 5)).2 = none
      ∧ lookupA (removeTagsT (⟨[(5, {0})], [(0, 5)]⟩ : Tag Nat Nat) (Sel.val 5)).1.mapping 5 = none
      ∧ bucket (removeTagsT (⟨[(5, {0})], [(0, 5)]⟩ : Tag Nat Nat) (Sel.val 5)).1 5 = ∅
      ∧ (∀ o ∈ bucket (⟨[(5, {0})], [(0, 5)]⟩ : Tag Nat Nat) 5,
          rv (removeTagsT (⟨[(5, {0})], [(0, 5)]⟩ : Tag Nat Nat) (Sel.val 5)).1 o = none)
      ∧ (findObjsT (removeTagsT (⟨[(5, {0})], [(0, 5)]⟩ : Tag Nat Nat) (Sel.val 5)).1
          (Sel.val 5)).2 = .ok ∅) := by
  have h1 : Inv ((tagT (Tag.empty : Tag Nat Nat) [0] (TagArg.val 5)).1) :=
    inv_tagT _ _ _ inv_empty
  have heq : (tagT (Tag.empty : Tag Nat Nat) [0] (TagArg.val 5)).1
      = (⟨[(5, {0})], [(0, 5)]⟩ : Tag Nat Nat) := by decide
  rw [heq] at h1
  exact ⟨h1, by decide, C5_remove_discards Nat Nat _ 5 h1 (by decide)⟩

/-- C6 counterexample: with indices {"a"} and the name list ["a", "b"],
`TagSpace.remove_tags` raises `KeyError` for "b" but has already deleted the
index "a" by the time the error is raised — observable state was mutated. -/
theorem C6_mutation_before_error_cex :
    (spaceRemoveTags (⟨false, [("a", Tag.empty)]⟩ : TagSpace Nat Nat) ["a", "b"] []).2
        = some PyErr.keyError
    ∧ lookupA (spaceRemoveTags (⟨false, [("a", Tag.empty)]⟩ : TagSpace Nat Nat)
        ["a", "b"] []).1.mapping "a" = none := by
  decide

/-- C6 (amended): `TagSpace.remove_tags` deletes plain names left to right;
on reaching an unknown name it raises `KeyError`, but the indices of the
known names listed before it have already been deleted — the call mutates
observable state before raising. -/
theorem C6_remove_names_partial (V O : Type) [DecidableEq V] [DecidableEq O]
    (sp m1 : TagSpace V O) (pre : List String) (n : String) (post : List String)
    (kw : List (String × Sel V))
    (h1 : delNames sp pre = (m1, none)) (h2 : lookupA m1.mapping n = none) :
    spaceRemoveTags sp (pre ++ n :: post) kw = (m1, some PyErr.keyError) := by
  unfold spaceRemoveTags
  rw [delNames_append pre (n :: post) sp m1 h1]
  simp only [delNames, h2]

/-- C6 witness: deleting ["a", "b"] when only "a" exists. -/
theorem C6_remove_names_partial_witness :
    delNames (⟨false, [("a", Tag.empty)]⟩ : TagSpace Nat Nat) ["a"]
        = (⟨false, []⟩, none)
    ∧ lookupA (⟨false, ([] : List (String × Tag Nat Nat))⟩ : TagSpace Nat Nat).mapping "b"
        = none
    ∧ spaceRemoveTags (⟨false, [("a", Tag.empty)]⟩ : TagSpace Nat Nat)
        (["a"] ++ "b" :: []) [] = (⟨false, []⟩, some PyErr.keyError) := by
  have ha : delNames (⟨false, [("a", Tag.empty)]⟩ : TagSpace Nat Nat) ["a"]
      = (⟨false, []⟩, none) := by decide
  have hb : lookupA (⟨false, ([] : List (String × Tag Nat Nat))⟩ : TagSpace Nat Nat).mapping "b"
      = none := by decide
  exact ⟨ha, hb, C6_remove_names_partial Nat Nat _ _ ["a"] "b" [] [] ha hb⟩

/-- C7: for a non-empty list of objects, `Tag.find_tag` returns `some v`
exactly when every object's reverse entry is `v`, and returns `None` exactly
when some object is absent from the reverse dict or two objects' reverse
lookups differ. -/
theorem C7_find_tag_shared (V O : Type) [DecidableEq V] [DecidableEq O]
    (t : Tag V O) (objs : List O) (h : objs ≠ []) (v : V) :
    (findTagT t objs = .ok (some v) ↔ ∀ o ∈ objs, rv t o = some v)
    ∧ (findTagT t objs = .ok none ↔
        ((∃ o ∈ objs, rv t o = none)
          ∨ ∃ o1 ∈ objs, ∃ o2 ∈ objs, rv t o1 ≠ rv t o2)) := by
  cases objs with
  | nil => exact absurd rfl h
  | cons o0 os =>
      have hdef : findTagT t (o0 :: os) =
          .ok ((os.map (fun o => rv t o)).foldl
            (fun x y => if x = y then x else none) (rv t o0)) := rfl
      have key : ∀ w : V, ((os.map (fun o => rv t o)).foldl
          (fun x y => if x = y then x else none) (rv t o0) = some w ↔
          ∀ o ∈ o0 :: os, rv t o = some w) := by
        intro w
        rw [foldl_shared_eq_some]
        constructor
        · rintro ⟨ha, hb⟩ o ho
          rcases List.mem_cons.mp ho with rfl | ho2
          · exact ha
          · exact hb _ (List.mem_map_of_mem _ ho2)
        · intro hall
          refine ⟨hall o0 (by simp), fun x hx => ?_⟩
          rcases List.mem_map.mp hx with ⟨o, ho, rfl⟩
          exact hall o (List.mem_cons_of_mem _ ho)
      constructor
      · rw [hdef]
        simp only [Except.ok.injEq]
        exact key v
      · rw [hdef]
        simp only [Except.ok.injEq]
        constructor
        · intro h0
          by_cases habs : ∃ o ∈ o0 :: os, rv t o = none
          · exact Or.inl habs
          · push_neg at habs
            rcases Option.ne_none_iff_exists'.mp (habs o0 (by simp)) with ⟨w, hw⟩
            by_cases hall : ∀ o ∈ o0 :: os, rv t o = rv t o0
            · have hgot := (key w).mpr (fun o ho => (hall o ho).trans hw)
              rw [h0] at hgot
              exact Option.noConfusion hgot
            · push_neg at hall
              rcases hall with ⟨o1, ho1, hne⟩
              exact Or.inr ⟨o1, ho1, o0, by simp, hne⟩
        · intro hD
          cases hFv : (os.map (fun o => rv t o)).foldl
              (fun x y => if x = y then x else none) (rv t o0) with
          | none => rfl
          | some w =>
              exfalso
              have hall := (key w).mp hFv
              rcases hD with ⟨o, ho, hnone⟩ | ⟨o1, ho1, o2, ho2, hne⟩
              · rw [hall o ho] at hnone
                exact Option.noConfusion hnone
              · exact hne ((hall o1 ho1).trans (hall o2 ho2).symm)

/-- C7 witness: two objects both holding value 5. -/
theorem C7_find_tag_shared_witness :
    ([1, 2] : List Nat) ≠ []
    ∧ ((findTagT (⟨[], [(1, 5), (2, 5)]⟩ : Tag Nat Nat) [1, 2] = .ok (some 5) ↔
        ∀ o ∈ [1, 2], rv (⟨[], [(1, 5), (2, 5)]⟩ : Tag Nat Nat) o = some 5)
      ∧ (findTagT (⟨[], [(1, 5), (2, 5)]⟩ : Tag Nat Nat) [1, 2] = .ok none ↔
        ((∃ o ∈ [1, 2], rv (⟨[], [(1, 5), (2, 5)]⟩ : Tag Nat Nat) o = none)
          ∨ ∃ o1 ∈ [1, 2], ∃ o2 ∈ [1, 2],
              rv (⟨[], [(1, 5), (2, 5)]⟩ : Tag Nat Nat) o1
                ≠ rv (⟨[], [(1, 5), (2, 5)]⟩ : Tag Nat Nat) o2))) :=
  ⟨by decide, C7_find_tag_shared Nat Nat _ [1, 2] (by decide) 5⟩

/-- C8: tagging the same object with the same value twice leaves the index
state identical to tagging it once; in particular a re-tag with the value the
object already holds leaves the state unchanged. -/
theorem C8_idempotent_retag (V O : Type) [DecidableEq V] [DecidableEq O]
    (t t2 : Tag V O) (o : O) (v : V)
    (h : tagT t [o] (TagArg.val v) = (t2, none)) :
    tagT t2 [o] (TagArg.val v) = (t2, none) := by
  rw [tagT_single] at h ⊢
  obtain ⟨X, R, Y, hshape⟩ := tagOne_shape t o v t2 h
  rw [hshape]
  exact tagOne_self_fixed X R o v Y

/-- C8 witness: tagging object 0 with value 1 on the empty index, twice. -/
theorem C8_idempotent_retag_witness :
    tagT (Tag.empty : Tag Nat Nat) [0] (TagArg.val 1) = (⟨[(1, {0})], [(0, 1)]⟩, none)
    ∧ tagT (⟨[(1, {0})], [(0, 1)]⟩ : Tag Nat Nat) [0] (TagArg.val 1)
        = (⟨[(1, {0})], [(0, 1)]⟩, none) := by
  have h1 : tagT (Tag.empty : Tag Nat Nat) [0] (TagArg.val 1)
      = (⟨[(1, {0})], [(0, 1)]⟩, none) := by decide
  exact ⟨h1, C8_idempotent_retag Nat Nat Tag.empty ⟨[(1, {0})], [(0, 1)]⟩ 0 1 h1⟩

/-- C9 counterexample: `Tag.tag` with a non-empty object list and an empty
value list (lengths differ) raises `TypeError`, contradicting the claim that
a length mismatch never raises. -/
theorem C9_empty_values_cex :
    (tagT (Tag.empty : Tag Nat Nat) [0] (TagArg.list [])).2 = some PyErr.typeError := by
  decide

/-- C9 (amended): for a NON-EMPTY value list, `Tag.tag` pairs objects and
values positionally via `zip`, truncating to the shorter sequence — trailing
unpaired objects or values are ignored — and raises nothing on an
invariant-satisfying index; an empty value list instead raises `TypeError`
inside `is_tag_value_iterable` (see the counterexample). -/
theorem C9_parallel_truncates (V O : Type) [DecidableEq V] [DecidableEq O]
    (t : Tag V O) (objs : List O) (vs : List V) (hInv : Inv t) (hv : vs ≠ []) :
    tagT t objs (TagArg.list vs) = tagMany t (objs.zip vs)
    ∧ (tagT t objs (TagArg.list vs)).2 = none
    ∧ (∀ extra : List O, vs.length ≤ objs.length →
        tagT t (objs ++ extra) (TagArg.list vs) = tagT t objs (TagArg.list vs))
    ∧ (∀ ws : List V, objs.length ≤ vs.length →
        tagT t objs (TagArg.list (vs ++ ws)) = tagT t objs (TagArg.list vs)) := by
  cases vs with
  | nil => exact absurd rfl hv
  | cons v vs2 =>
      refine ⟨rfl, ?_, ?_, ?_⟩
      · exact (tagMany_ok (objs.zip (v :: vs2)) t hInv).1
      · intro extra hlen
        show tagMany t ((objs ++ extra).zip (v :: vs2)) = tagMany t (objs.zip (v :: vs2))
        rw [zip_append_left_eq objs extra (v :: vs2) hlen]
      · intro ws hlen
        show tagMany t (objs.zip ((v :: vs2) ++ ws)) = tagMany t (objs.zip (v :: vs2))
        rw [zip_append_right_eq objs (v :: vs2) ws hlen]

/-- C9 witness: objects [1, 2] with the single-value list [3] on the empty
index: object 1 is paired with 3, object 2 is ignored, no error. -/
theorem C9_parallel_truncates_witness :
    Inv (Tag.empty : Tag Nat Nat)
    ∧ ([3] : List Nat) ≠ []
    ∧ (tagT (Tag.empty : Tag Nat Nat) [1, 2] (TagArg.list [3])
          = tagMany Tag.empty ([1, 2].zip [3])
      ∧ (tagT (Tag.empty : Tag Nat Nat) [1, 2] (TagArg.list [3])).2 = none
      ∧ (∀ extra : List Nat, ([3] : List Nat).length ≤ ([1, 2] : List Nat).length →
          tagT (Tag.empty : Tag Nat Nat) ([1, 2] ++ extra) (TagArg.list [3])
            = tagT Tag.empty [1, 2] (TagArg.list [3]))
      ∧ (∀ ws : List Nat, ([1, 2] : List Nat).length ≤ ([3] : List Nat).length →
          tagT (Tag.empty : Tag Nat Nat) [1, 2] (TagArg.list ([3] ++ ws))
            = tagT Tag.empty [1, 2] (TagArg.list [3]))) :=
  ⟨inv_empty, by decide,
    C9_parallel_truncates Nat Nat Tag.empty [1, 2] [3] inv_empty (by decide)⟩

/-- C10: an exact-value `find_objs(v)` on an index whose forward dict lacks
`v` returns the empty set but inserts an empty bucket for `v` (a `defaultdict`
read), an observable change: the same predicate query that raised `TypeError`
before the read returns the empty set after it. -/
theorem C10_exact_find_inserts (V O : Type) [DecidableEq V] [DecidableEq O]
    (t : Tag V O) (v : V) (h : lookupA t.mapping v = none) :
    (findObjsT t (Sel.val v)).2 = .ok ∅
    ∧ (findObjsT t (Sel.val v)).1.mapping = t.mapping ++ [(v, ∅)]
    ∧ lookupA (findObjsT t (Sel.val v)).1.mapping v = some ∅
    ∧ (findObjsT t (Sel.fn (fun x => decide (x = v)))).2 = .error PyErr.typeError
    ∧ (findObjsT (findObjsT t (Sel.val v)).1 (Sel.fn (fun x => decide (x = v)))).2
        = .ok ∅ := by
  have hg : getA t.mapping v ∅ = (t.mapping ++ [(v, ∅)], ∅) := getA_of_none _ _ _ h
  have hfv : findObjsT t (Sel.val v) = (⟨t.mapping ++ [(v, ∅)], t.reverse⟩, .ok ∅) := by
    simp only [findObjsT, hg]
  have hlook : lookupA (t.mapping ++ [(v, ∅)]) v = some ∅ := by
    rw [lookupA_append_none _ _ _ h]
    simp [lookupA]
  have hfilter : (t.mapping.map Prod.fst).filter (fun x => decide (x = v)) = [] := by
    rw [List.filter_eq_nil_iff]
    intro a ha
    simp only [decide_eq_true_eq]
    intro he
    subst he
    exact (lookupA_eq_none_iff _ _).mp h ha
  refine ⟨by rw [hfv], by rw [hfv], by rw [hfv]; exact hlook, ?_, ?_⟩
  · simp only [findObjsT, hfilter, List.map_nil, reduceUnion]
  · rw [hfv]
    simp only [findObjsT]
    have hkeys : (((t.mapping ++ [(v, ∅)]).map Prod.fst).filter (fun x => decide (x = v)))
        = [v] := by
      rw [List.map_append, List.filter_append, hfilter]
      simp
    rw [hkeys]
    simp [reduceUnion, hlook]

/-- C10 witness: the empty index and the never-seen value 0. -/
theorem C10_exact_find_inserts_witness :
    lookupA (Tag.empty : Tag Nat Nat).mapping 0 = none
    ∧ ((findObjsT (Tag.empty : Tag Nat Nat) (Sel.val 0)).2 = .ok ∅
      ∧ (findObjsT (Tag.empty : Tag Nat Nat) (Sel.val 0)).1.mapping
          = (Tag.empty : Tag Nat Nat).mapping ++ [(0, ∅)]
      ∧ lookupA (findObjsT (Tag.empty : Tag Nat Nat) (Sel.val 0)).1.mapping 0 = some ∅
      ∧ (findObjsT (Tag.empty : Tag Nat Nat) (Sel.fn (fun x => decide (x = 0)))).2
          = .error PyErr.typeError
      ∧ (findObjsT (findObjsT (Tag.empty : Tag Nat Nat) (Sel.val 0)).1
          (Sel.fn (fun x => decide (x = 0)))).2 = .ok ∅) :=
  ⟨by decide, C10_exact_find_inserts Nat Nat Tag.empty 0 (by decide)⟩

end PyTagSpace
